import Mathlib

/-!
Verification of the bubble sort library (`sorting/bubblesort/buble_sort.go`).

The Go library exposes two entry points:

* `Sort[T constraints.Ordered](items []T) []T` — natural-order bubble sort;
* `SortWithComparator[T any](items []T, comparator func(a, b T) int) []T` —
  bubble sort driven by a caller-supplied three-way comparator.

Both share one control structure: an outer loop that runs while the previous
pass swapped something, an inner pass over indices `0 .. n-2` swapping adjacent
out-of-order pairs, and a scan bound `n` that starts at the length and shrinks
by one after every pass.

The embedding below represents a Go slice as a `List`.  The inner loop is
embedded structurally as `passUpto` (the scan bound is the first argument; a
swap carries the larger element rightward exactly as the Go index loop does),
and the outer loop as `bubbleLoop`, whose fuel is the scan bound `n` itself:
the Go loop decrements `n` on every iteration and exits as soon as a pass
performs no swap, and a pass with bound `≤ 1` never swaps, so `n` never goes
below zero and is a valid termination measure.  `Sort` is a reserved token in
Lean, so the natural-order entry point is named `Sort'`.

A second, index-based embedding (`innerIdx` / `outerIdx` / `SortIdx` /
`SortWithComparatorIdx`) mirrors the Go code position by position: every
element access `items[i]` is an `Option`-returning lookup and an out-of-bounds
access aborts the whole computation with `none`.  It is proved to always
return `some` of the structural embedding's result.

Instrumented variants (suffix `C` / `Cnt`) additionally count how many times
the ordering test (the comparator call, or the `>` comparison) is evaluated.
-/

set_option maxHeartbeats 1000000

namespace BubbleSortGo

universe u v

variable {α : Type u} {β : Type v}

/-- One inner pass of `SortWithComparator` over the first `n` positions of the
list: for `i = 0 .. n-2`, if `comparator(items[i], items[i+1]) > 0` the two
adjacent elements are swapped.  The returned `Bool` is the `swapped` flag. -/
def passUpto (cmp : α → α → Int) : Nat → List α → List α × Bool
  | n + 2, a :: b :: rest =>
    if 0 < cmp a b then
      (b :: (passUpto cmp (n + 1) (a :: rest)).1, true)
    else
      (a :: (passUpto cmp (n + 1) (b :: rest)).1, (passUpto cmp (n + 1) (b :: rest)).2)
  | _, l => (l, false)

/-- The outer loop of `SortWithComparator`: run a pass with scan bound `n`;
if it swapped, continue with bound `n - 1`, otherwise stop. -/
def bubbleLoop (cmp : α → α → Int) : Nat → List α → List α
  | 0, l => l
  | n + 1, l =>
    if (passUpto cmp (n + 1) l).2 then bubbleLoop cmp n (passUpto cmp (n + 1) l).1
    else (passUpto cmp (n + 1) l).1

/-- Embedding of Go `SortWithComparator`: return the input unchanged when its
length is at most 1, otherwise run the bubble loop with initial bound
`len(items)`. -/
def SortWithComparator (items : List α) (comparator : α → α → Int) : List α :=
  if items.length ≤ 1 then items else bubbleLoop comparator items.length items

/-- One inner pass of natural-order `Sort`: the swap test is
`items[i] > items[i+1]`. -/
def passGt [LinearOrder α] : Nat → List α → List α × Bool
  | n + 2, a :: b :: rest =>
    if a > b then
      (b :: (passGt (n + 1) (a :: rest)).1, true)
    else
      (a :: (passGt (n + 1) (b :: rest)).1, (passGt (n + 1) (b :: rest)).2)
  | _, l => (l, false)

/-- The outer loop of natural-order `Sort`. -/
def bubbleLoopGt [LinearOrder α] : Nat → List α → List α
  | 0, l => l
  | n + 1, l =>
    if (passGt (n + 1) l).2 then bubbleLoopGt n (passGt (n + 1) l).1
    else (passGt (n + 1) l).1

/-- Embedding of Go `Sort` (the identifier `Sort` is reserved in Lean). -/
def Sort' [LinearOrder α] (items : List α) : List α :=
  if items.length ≤ 1 then items else bubbleLoopGt items.length items

/-- The three-way comparator derived from a natural total order: negative when
`a < b`, zero when the two are equal, positive when `a > b`. -/
def natCmp [LinearOrder α] (a b : α) : Int :=
  if a < b then -1 else if a > b then 1 else 0

/-- A valid total-order comparator: the sign of `cmp a b` is consistent with
the sign of `cmp b a`, and the induced reflexive relation `cmp a b ≤ 0`
("`a` does not sort after `b`") is transitive. -/
structure IsTotalOrderCmp (cmp : α → α → Int) : Prop where
  antisym : ∀ a b, 0 < cmp a b ↔ cmp b a < 0
  trans : ∀ a b c, cmp a b ≤ 0 → cmp b c ≤ 0 → cmp a c ≤ 0

/-- Instrumented inner pass: the third component counts comparator calls. -/
def passUptoC (cmp : α → α → Int) : Nat → List α → List α × Bool × Nat
  | n + 2, a :: b :: rest =>
    if 0 < cmp a b then
      (b :: (passUptoC cmp (n + 1) (a :: rest)).1, true,
        (passUptoC cmp (n + 1) (a :: rest)).2.2 + 1)
    else
      (a :: (passUptoC cmp (n + 1) (b :: rest)).1,
        (passUptoC cmp (n + 1) (b :: rest)).2.1,
        (passUptoC cmp (n + 1) (b :: rest)).2.2 + 1)
  | _, l => (l, false, 0)

/-- Instrumented outer loop: the second component counts comparator calls. -/
def bubbleLoopC (cmp : α → α → Int) : Nat → List α → List α × Nat
  | 0, l => (l, 0)
  | n + 1, l =>
    if (passUptoC cmp (n + 1) l).2.1 then
      ((bubbleLoopC cmp n (passUptoC cmp (n + 1) l).1).1,
        (passUptoC cmp (n + 1) l).2.2 + (bubbleLoopC cmp n (passUptoC cmp (n + 1) l).1).2)
    else ((passUptoC cmp (n + 1) l).1, (passUptoC cmp (n + 1) l).2.2)

/-- `SortWithComparator` together with the number of comparator calls made. -/
def SortWithComparatorCnt (items : List α) (comparator : α → α → Int) : List α × Nat :=
  if items.length ≤ 1 then (items, 0) else bubbleLoopC comparator items.length items

/-- Instrumented natural-order inner pass counting `>` evaluations. -/
def passGtC [LinearOrder α] : Nat → List α → List α × Bool × Nat
  | n + 2, a :: b :: rest =>
    if a > b then
      (b :: (passGtC (n + 1) (a :: rest)).1, true, (passGtC (n + 1) (a :: rest)).2.2 + 1)
    else
      (a :: (passGtC (n + 1) (b :: rest)).1,
        (passGtC (n + 1) (b :: rest)).2.1, (passGtC (n + 1) (b :: rest)).2.2 + 1)
  | _, l => (l, false, 0)

/-- Instrumented natural-order outer loop counting `>` evaluations. -/
def bubbleLoopGtC [LinearOrder α] : Nat → List α → List α × Nat
  | 0, l => (l, 0)
  | n + 1, l =>
    if (passGtC (n + 1) l).2.1 then
      ((bubbleLoopGtC n (passGtC (n + 1) l).1).1,
        (passGtC (n + 1) l).2.2 + (bubbleLoopGtC n (passGtC (n + 1) l).1).2)
    else ((passGtC (n + 1) l).1, (passGtC (n + 1) l).2.2)

/-- `Sort'` together with the number of `>` comparisons made. -/
def SortCnt [LinearOrder α] (items : List α) : List α × Nat :=
  if items.length ≤ 1 then (items, 0) else bubbleLoopGtC items.length items

/-- Index-based inner loop of `SortWithComparator`, mirroring
`for i := 0; i < n-1; i++` with `fuel = n - 1 - i` iterations left: each step
reads `items[i]` and `items[i+1]` through `Option`-returning lookups and, on a
swap, writes both positions back.  An out-of-bounds access yields `none`. -/
def innerIdx (cmp : α → α → Int) : Nat → Nat → List α → Bool → Option (List α × Bool)
  | 0, _, l, swapped => some (l, swapped)
  | fuel + 1, i, l, swapped =>
    match l[i]?, l[i + 1]? with
    | some a, some b =>
      if 0 < cmp a b then innerIdx cmp fuel (i + 1) ((l.set i b).set (i + 1) a) true
      else innerIdx cmp fuel (i + 1) l swapped
    | _, _ => none

/-- Index-based outer loop of `SortWithComparator`. -/
def outerIdx (cmp : α → α → Int) : Nat → List α → Option (List α)
  | 0, l => some l
  | n + 1, l =>
    match innerIdx cmp n 0 l false with
    | none => none
    | some (l', swapped) => if swapped then outerIdx cmp n l' else some l'

/-- Index-based embedding of Go `SortWithComparator`. -/
def SortWithComparatorIdx (items : List α) (comparator : α → α → Int) :
    Option (List α) :=
  if items.length ≤ 1 then some items else outerIdx comparator items.length items

/-- Index-based inner loop of natural-order `Sort`. -/
def innerIdxGt [LinearOrder α] : Nat → Nat → List α → Bool → Option (List α × Bool)
  | 0, _, l, swapped => some (l, swapped)
  | fuel + 1, i, l, swapped =>
    match l[i]?, l[i + 1]? with
    | some a, some b =>
      if a > b then innerIdxGt fuel (i + 1) ((l.set i b).set (i + 1) a) true
      else innerIdxGt fuel (i + 1) l swapped
    | _, _ => none

/-- Index-based outer loop of natural-order `Sort`. -/
def outerIdxGt [LinearOrder α] : Nat → List α → Option (List α)
  | 0, l => some l
  | n + 1, l =>
    match innerIdxGt n 0 l false with
    | none => none
    | some (l', swapped) => if swapped then outerIdxGt n l' else some l'

/-- Index-based embedding of Go `Sort`. -/
def SortIdx [LinearOrder α] (items : List α) : Option (List α) :=
  if items.length ≤ 1 then some items else outerIdxGt items.length items

/-- Pair every element with its zero-based input position, starting at `k`. -/
def tagFrom : Nat → List α → List (α × Nat)
  | _, [] => []
  | k, a :: t => (a, k) :: tagFrom (k + 1) t

/-! ### Equation lemmas for the inner pass -/

@[simp] theorem passUpto_nil (cmp : α → α → Int) (n : Nat) :
    passUpto cmp n [] = ([], false) := by
  rcases n with _ | _ | n <;> rfl

@[simp] theorem passUpto_singleton (cmp : α → α → Int) (n : Nat) (a : α) :
    passUpto cmp n [a] = ([a], false) := by
  rcases n with _ | _ | n <;> rfl

@[simp] theorem passUpto_zero (cmp : α → α → Int) (l : List α) :
    passUpto cmp 0 l = (l, false) := by
  rcases l with _ | ⟨a, _ | ⟨b, t⟩⟩ <;> rfl

@[simp] theorem passUpto_one (cmp : α → α → Int) (l : List α) :
    passUpto cmp 1 l = (l, false) := by
  rcases l with _ | ⟨a, _ | ⟨b, t⟩⟩ <;> rfl

theorem passUpto_cons₂ (cmp : α → α → Int) (n : Nat) (a b : α) (t : List α) :
    passUpto cmp (n + 2) (a :: b :: t) =
      if 0 < cmp a b then
        (b :: (passUpto cmp (n + 1) (a :: t)).1, true)
      else
        (a :: (passUpto cmp (n + 1) (b :: t)).1, (passUpto cmp (n + 1) (b :: t)).2) := by
  rw [passUpto]

/-! ### The pass is a permutation and leaves the part beyond the bound alone -/

theorem passUpto_perm (cmp : α → α → Int) :
    ∀ (n : Nat) (l : List α), ((passUpto cmp n l).1).Perm l
  | _, [] => by simp
  | _, [a] => by simp
  | 0, a :: b :: t => by simp
  | 1, a :: b :: t => by simp
  | n + 2, a :: b :: t => by
    rw [passUpto_cons₂]
    split
    · exact (((passUpto_perm cmp (n + 1) (a :: t)).cons b).trans (List.Perm.swap a b t))
    · exact (passUpto_perm cmp (n + 1) (b :: t)).cons a

theorem passUpto_length (cmp : α → α → Int) (n : Nat) (l : List α) :
    ((passUpto cmp n l).1).length = l.length :=
  (passUpto_perm cmp n l).length_eq

theorem passUpto_mem {cmp : α → α → Int} {n : Nat} {l : List α} {x : α}
    (hx : x ∈ (passUpto cmp n l).1) : x ∈ l :=
  (passUpto_perm cmp n l).mem_iff.mp hx

theorem passUpto_drop (cmp : α → α → Int) :
    ∀ (n : Nat) (l : List α), ((passUpto cmp n l).1).drop n = l.drop n
  | _, [] => by simp
  | _, [a] => by simp
  | 0, a :: b :: t => by simp
  | 1, a :: b :: t => by simp
  | n + 2, a :: b :: t => by
    rw [passUpto_cons₂]
    split
    · simpa using passUpto_drop cmp (n + 1) (a :: t)
    · simpa using passUpto_drop cmp (n + 1) (b :: t)

/-- A pass whose bound fits inside the left part of an append never touches
the right part. -/
theorem passUpto_append (cmp : α → α → Int) :
    ∀ (n : Nat) (l₁ l₂ : List α), n ≤ l₁.length →
      passUpto cmp n (l₁ ++ l₂) =
        ((passUpto cmp n l₁).1 ++ l₂, (passUpto cmp n l₁).2)
  | 0, l₁, l₂, _ => by simp
  | 1, l₁, l₂, _ => by simp
  | n + 2, [], l₂, h => by simp at h
  | n + 2, [a], l₂, h => by simp at h
  | n + 2, a :: b :: t, l₂, h => by
    have ht : n + 1 ≤ (a :: t).length := by simp at h ⊢; omega
    have ht' : n + 1 ≤ (b :: t).length := by simp at h ⊢; omega
    have hswap := passUpto_append cmp (n + 1) (a :: t) l₂ ht
    have hns := passUpto_append cmp (n + 1) (b :: t) l₂ ht'
    simp only [List.cons_append, passUpto_cons₂]
    by_cases hc : 0 < cmp a b
    · rw [if_pos hc, if_pos hc, ← List.cons_append a t l₂, hswap]
      simp
    · rw [if_neg hc, if_neg hc, ← List.cons_append b t l₂, hns]
      simp

/-! ### A pass that performs no swap leaves the list unchanged,
and certifies that the scanned window was already in order -/

theorem passUpto_eq_of_not_swapped (cmp : α → α → Int) :
    ∀ (n : Nat) (l : List α), (passUpto cmp n l).2 = false → (passUpto cmp n l).1 = l
  | _, [], _ => by simp
  | _, [a], _ => by simp
  | 0, a :: b :: t, _ => by simp
  | 1, a :: b :: t, _ => by simp
  | n + 2, a :: b :: t, h => by
    rw [passUpto_cons₂] at h ⊢
    by_cases hc : 0 < cmp a b
    · rw [if_pos hc] at h
      simp at h
    · rw [if_neg hc] at h ⊢
      rw [passUpto_eq_of_not_swapped cmp (n + 1) (b :: t) h]

theorem passUpto_chain_of_not_swapped (cmp : α → α → Int) :
    ∀ (n : Nat) (l : List α), (passUpto cmp n l).2 = false →
      List.Chain' (fun a b => cmp a b ≤ 0) (l.take n)
  | _, [], _ => by simp
  | n, [a], _ => by rcases n with _ | n <;> simp
  | 0, a :: b :: t, _ => by simp
  | 1, a :: b :: t, _ => by simp
  | n + 2, a :: b :: t, h => by
    rw [passUpto_cons₂] at h
    by_cases hc : 0 < cmp a b
    · rw [if_pos hc] at h
      simp at h
    · rw [if_neg hc] at h
      have hab : cmp a b ≤ 0 := by omega
      have hrest := passUpto_chain_of_not_swapped cmp (n + 1) (b :: t) h
      simp only [List.take_succ_cons] at hrest ⊢
      exact List.chain'_cons.mpr ⟨hab, hrest⟩


/-! ### The scanned window's greatest element moves to the window's right end -/

theorem le_refl_of_flip {cmp : α → α → Int}
    (hf : ∀ a b, 0 < cmp a b → cmp b a ≤ 0) (a : α) : cmp a a ≤ 0 := by
  by_contra h
  exact absurd (hf a a (by omega)) h

theorem passUpto_max {cmp : α → α → Int}
    (hf : ∀ a b, 0 < cmp a b → cmp b a ≤ 0)
    (ht : ∀ a b c, cmp a b ≤ 0 → cmp b c ≤ 0 → cmp a c ≤ 0) :
    ∀ (n : Nat) (a : α) (l : List α), l.length + 1 ≤ n →
      ∃ t m, (passUpto cmp n (a :: l)).1 = t ++ [m] ∧ ∀ x ∈ a :: l, cmp x m ≤ 0
  | n, a, [], _ => ⟨[], a, by simp, by
      intro x hx
      simp only [List.mem_singleton] at hx
      subst hx
      exact le_refl_of_flip hf x⟩
  | 0, a, b :: t, h => by simp at h
  | 1, a, b :: t, h => by simp at h
  | n + 2, a, b :: t, h => by
    rw [passUpto_cons₂]
    by_cases hc : 0 < cmp a b
    · rw [if_pos hc]
      obtain ⟨t', m, he, hb⟩ :=
        passUpto_max hf ht (n + 1) a t (by simp at h ⊢; omega)
      refine ⟨b :: t', m, by simp [he], ?_⟩
      intro x hx
      simp only [List.mem_cons] at hx
      rcases hx with hx | hx | hx
      · subst hx
        exact hb x (List.mem_cons_self x t)
      · subst hx
        exact ht x a m (hf a x hc) (hb a (List.mem_cons_self a t))
      · exact hb x (List.mem_cons_of_mem a hx)
    · rw [if_neg hc]
      obtain ⟨t', m, he, hb⟩ :=
        passUpto_max hf ht (n + 1) b t (by simp at h ⊢; omega)
      refine ⟨a :: t', m, by simp [he], ?_⟩
      intro x hx
      simp only [List.mem_cons] at hx
      rcases hx with hx | hx | hx
      · subst hx
        exact ht x b m (by omega) (hb b (List.mem_cons_self b t))
      · subst hx
        exact hb x (List.mem_cons_self x t)
      · exact hb x (List.mem_cons_of_mem b hx)

/-! ### Invariant preservation across one pass -/

/-- After a pass with scan bound `n ≥ 1` on a list whose suffix beyond
position `n - 1` is sorted and dominates the first `n` elements, the suffix
beyond position `n - 2` is sorted and dominates the first `n - 1` elements:
the pass moved the window's greatest element into its final position. -/
theorem passUpto_inv {cmp : α → α → Int}
    (hf : ∀ a b, 0 < cmp a b → cmp b a ≤ 0)
    (ht : ∀ a b c, cmp a b ≤ 0 → cmp b c ≤ 0 → cmp a c ≤ 0)
    (n : Nat) (l : List α) (hn1 : 1 ≤ n) (hn : n ≤ l.length)
    (h2 : ∀ x ∈ l.take n, ∀ y ∈ l.drop n, cmp x y ≤ 0)
    (h1 : List.Pairwise (fun a b => cmp a b ≤ 0) (l.drop n)) :
    (∀ x ∈ ((passUpto cmp n l).1).take (n - 1),
        ∀ y ∈ ((passUpto cmp n l).1).drop (n - 1), cmp x y ≤ 0) ∧
      List.Pairwise (fun a b => cmp a b ≤ 0) (((passUpto cmp n l).1).drop (n - 1)) := by
  rcases Nat.lt_or_ge n 2 with hn2 | hn2
  · have hn' : n = 1 := by omega
    subst hn'
    rcases l with _ | ⟨a, t⟩
    · simp at hn
    · simp only [passUpto_one, Nat.sub_self, List.take_zero, List.drop_zero]
      refine ⟨by simp, ?_⟩
      refine List.pairwise_cons.mpr ⟨?_, by simpa using h1⟩
      intro y hy
      exact h2 a (by simp) y (by simpa using hy)
  · have hwlen : (l.take n).length = n := by
      rw [List.length_take]
      omega
    obtain ⟨a, w, hw⟩ : ∃ a w, l.take n = a :: w := by
      rcases hlt : l.take n with _ | ⟨a, w⟩
      · rw [hlt] at hwlen
        simp at hwlen
        omega
      · exact ⟨a, w, rfl⟩
    have happ : l = l.take n ++ l.drop n := (List.take_append_drop n l).symm
    have hpass : passUpto cmp n l =
        ((passUpto cmp n (l.take n)).1 ++ l.drop n, (passUpto cmp n (l.take n)).2) := by
      conv_lhs => rw [happ]
      exact passUpto_append cmp n (l.take n) (l.drop n) (le_of_eq hwlen.symm)
    obtain ⟨t', m, he, hb⟩ := passUpto_max hf ht n a w (by
      have := hwlen
      rw [hw] at this
      simp at this
      omega)
    rw [← hw] at he hb
    have hmemw : ∀ x, x ∈ t' ++ [m] → x ∈ l.take n := by
      intro x hx
      rw [← he] at hx
      exact passUpto_mem hx
    have ht'len : t'.length = n - 1 := by
      have := passUpto_length cmp n (l.take n)
      rw [he] at this
      simp at this
      omega
    have hr : (passUpto cmp n l).1 = t' ++ (m :: l.drop n) := by
      rw [hpass]
      simp [he]
    have hrtake : ((passUpto cmp n l).1).take (n - 1) = t' :=
      hr ▸ List.take_left' ht'len
    have hrdrop : ((passUpto cmp n l).1).drop (n - 1) = m :: l.drop n :=
      hr ▸ List.drop_left' ht'len
    constructor
    · intro x hx y hy
      rw [hrtake] at hx
      rw [hrdrop] at hy
      have hxw : x ∈ l.take n := hmemw x (by simp [hx])
      rcases List.mem_cons.mp hy with hy | hy
      · subst hy
        exact hb x hxw
      · exact h2 x hxw y hy
    · rw [hrdrop]
      refine List.pairwise_cons.mpr ⟨?_, h1⟩
      intro y hy
      exact h2 m (hmemw m (by simp)) y hy

/-! ### The outer loop: permutation and sortedness -/

theorem bubbleLoop_perm (cmp : α → α → Int) :
    ∀ (n : Nat) (l : List α), (bubbleLoop cmp n l).Perm l
  | 0, l => List.Perm.refl l
  | n + 1, l => by
    rw [bubbleLoop]
    split
    · exact (bubbleLoop_perm cmp n _).trans (passUpto_perm cmp (n + 1) l)
    · exact passUpto_perm cmp (n + 1) l

theorem bubbleLoop_sorted {cmp : α → α → Int}
    (hf : ∀ a b, 0 < cmp a b → cmp b a ≤ 0)
    (ht : ∀ a b c, cmp a b ≤ 0 → cmp b c ≤ 0 → cmp a c ≤ 0) :
    ∀ (n : Nat) (l : List α), n ≤ l.length →
      (∀ x ∈ l.take n, ∀ y ∈ l.drop n, cmp x y ≤ 0) →
      List.Pairwise (fun a b => cmp a b ≤ 0) (l.drop n) →
      List.Pairwise (fun a b => cmp a b ≤ 0) (bubbleLoop cmp n l)
  | 0, l, _, _, h1 => by simpa using h1
  | n + 1, l, hn, h2, h1 => by
    rw [bubbleLoop]
    by_cases hs : (passUpto cmp (n + 1) l).2 = true
    · rw [if_pos hs]
      obtain ⟨h2', h1'⟩ := passUpto_inv hf ht (n + 1) l (by omega) hn h2 h1
      exact bubbleLoop_sorted hf ht n _
        (by rw [passUpto_length]; omega) (by simpa using h2') (by simpa using h1')
    · rw [if_neg hs]
      have hs' : (passUpto cmp (n + 1) l).2 = false := by
        simpa using hs
      rw [passUpto_eq_of_not_swapped cmp (n + 1) l hs']
      have hch := passUpto_chain_of_not_swapped cmp (n + 1) l hs'
      have htr : Transitive fun a b => cmp a b ≤ 0 := fun x y z hxy hyz => ht x y z hxy hyz
      haveI : IsTrans α fun a b => cmp a b ≤ 0 := ⟨fun x y z hxy hyz => ht x y z hxy hyz⟩
      have hptake : List.Pairwise (fun a b => cmp a b ≤ 0) (l.take (n + 1)) :=
        List.chain'_iff_pairwise.mp hch
      conv_rhs => rw [← List.take_append_drop (n + 1) l]
      exact List.pairwise_append.mpr ⟨hptake, h1, fun x hx y hy => h2 x hx y hy⟩

theorem sortWithComparator_perm (l : List α) (cmp : α → α → Int) :
    (SortWithComparator l cmp).Perm l := by
  rw [SortWithComparator]
  split
  · exact List.Perm.refl l
  · exact bubbleLoop_perm cmp l.length l

theorem sortWithComparator_sorted {cmp : α → α → Int}
    (hf : ∀ a b, 0 < cmp a b → cmp b a ≤ 0)
    (ht : ∀ a b c, cmp a b ≤ 0 → cmp b c ≤ 0 → cmp a c ≤ 0)
    (l : List α) :
    List.Pairwise (fun a b => cmp a b ≤ 0) (SortWithComparator l cmp) := by
  rw [SortWithComparator]
  split
  · next h =>
    rcases l with _ | ⟨a, _ | ⟨b, t⟩⟩
    · simp
    · simp
    · simp at h
  · exact bubbleLoop_sorted hf ht l.length l le_rfl (by simp) (by simp)

/-! ### The natural-order comparator and the bridge between the two entry points -/

theorem natCmp_pos_iff [LinearOrder α] (a b : α) : 0 < natCmp a b ↔ a > b := by
  rw [natCmp]
  split_ifs with h1 h2
  · simp only [show ¬(0 : Int) < -1 by decide, false_iff]
    exact fun hab => lt_asymm h1 hab
  · simp [h2]
  · simp [h2]

theorem natCmp_neg_iff [LinearOrder α] (a b : α) : natCmp a b < 0 ↔ a < b := by
  rw [natCmp]
  split_ifs with h1 h2
  · simp [h1]
  · simp only [show ¬(1 : Int) < 0 by decide, false_iff]
    exact fun hab => lt_asymm h2 hab
  · simp [h1]

theorem natCmp_nonpos_iff [LinearOrder α] (a b : α) : natCmp a b ≤ 0 ↔ a ≤ b := by
  rw [natCmp]
  split_ifs with h1 h2
  · simp [h1.le]
  · simp [not_le.mpr h2]
  · simp [not_lt.mp h2]

theorem natCmp_valid [LinearOrder α] : IsTotalOrderCmp (natCmp : α → α → Int) := by
  constructor
  · intro a b
    rw [natCmp_pos_iff, natCmp_neg_iff]
  · intro a b c hab hbc
    rw [natCmp_nonpos_iff] at hab hbc ⊢
    exact le_trans hab hbc

theorem IsTotalOrderCmp.flip {cmp : α → α → Int} (h : IsTotalOrderCmp cmp) :
    ∀ a b, 0 < cmp a b → cmp b a ≤ 0 :=
  fun a b hab => le_of_lt ((h.antisym a b).mp hab)

theorem IsTotalOrderCmp.nonneg_rev {cmp : α → α → Int} (h : IsTotalOrderCmp cmp)
    {a b : α} (hab : cmp a b ≤ 0) : 0 ≤ cmp b a := by
  by_contra hc
  have := (h.antisym a b).mpr (by omega)
  omega

@[simp] theorem passGt_nil [LinearOrder α] (n : Nat) :
    passGt n ([] : List α) = ([], false) := by
  rcases n with _ | _ | n <;> rfl

@[simp] theorem passGt_singleton [LinearOrder α] (n : Nat) (a : α) :
    passGt n [a] = ([a], false) := by
  rcases n with _ | _ | n <;> rfl

theorem passGt_cons₂ [LinearOrder α] (n : Nat) (a b : α) (t : List α) :
    passGt (n + 2) (a :: b :: t) =
      if a > b then
        (b :: (passGt (n + 1) (a :: t)).1, true)
      else
        (a :: (passGt (n + 1) (b :: t)).1, (passGt (n + 1) (b :: t)).2) := by
  rw [passGt]

theorem passGt_eq [LinearOrder α] :
    ∀ (n : Nat) (l : List α), passGt n l = passUpto natCmp n l
  | _, [] => by simp
  | _, [a] => by simp
  | 0, a :: b :: t => by rfl
  | 1, a :: b :: t => by rfl
  | n + 2, a :: b :: t => by
    rw [passGt_cons₂, passUpto_cons₂,
      passGt_eq (n + 1) (a :: t), passGt_eq (n + 1) (b :: t)]
    simp only [natCmp_pos_iff]

theorem bubbleLoopGt_eq [LinearOrder α] :
    ∀ (n : Nat) (l : List α), bubbleLoopGt n l = bubbleLoop natCmp n l
  | 0, _ => rfl
  | n + 1, l => by
    rw [bubbleLoopGt, bubbleLoop, passGt_eq (n + 1) l]
    split
    · exact bubbleLoopGt_eq n _
    · rfl

theorem sort_eq_sortWithComparator [LinearOrder α] (l : List α) :
    Sort' l = SortWithComparator l natCmp := by
  rw [Sort', SortWithComparator]
  split
  · rfl
  · exact bubbleLoopGt_eq l.length l

theorem sort_sorted [LinearOrder α] (l : List α) :
    List.Sorted (· ≤ ·) (Sort' l) := by
  rw [sort_eq_sortWithComparator]
  exact (sortWithComparator_sorted natCmp_valid.flip natCmp_valid.trans l).imp
    fun hab => (natCmp_nonpos_iff _ _).mp hab

theorem sort_perm [LinearOrder α] (l : List α) : (Sort' l).Perm l := by
  rw [sort_eq_sortWithComparator]
  exact sortWithComparator_perm l natCmp

/-! ### The instrumented variants project onto the plain ones, and the number
of ordering tests is quadratically bounded -/

@[simp] theorem passUptoC_nil (cmp : α → α → Int) (n : Nat) :
    passUptoC cmp n [] = ([], false, 0) := by
  rcases n with _ | _ | n <;> rfl

@[simp] theorem passUptoC_singleton (cmp : α → α → Int) (n : Nat) (a : α) :
    passUptoC cmp n [a] = ([a], false, 0) := by
  rcases n with _ | _ | n <;> rfl

@[simp] theorem passUptoC_zero (cmp : α → α → Int) (l : List α) :
    passUptoC cmp 0 l = (l, false, 0) := by
  rcases l with _ | ⟨a, _ | ⟨b, t⟩⟩ <;> rfl

@[simp] theorem passUptoC_one (cmp : α → α → Int) (l : List α) :
    passUptoC cmp 1 l = (l, false, 0) := by
  rcases l with _ | ⟨a, _ | ⟨b, t⟩⟩ <;> rfl

theorem passUptoC_cons₂ (cmp : α → α → Int) (n : Nat) (a b : α) (t : List α) :
    passUptoC cmp (n + 2) (a :: b :: t) =
      if 0 < cmp a b then
        (b :: (passUptoC cmp (n + 1) (a :: t)).1, true,
          (passUptoC cmp (n + 1) (a :: t)).2.2 + 1)
      else
        (a :: (passUptoC cmp (n + 1) (b :: t)).1,
          (passUptoC cmp (n + 1) (b :: t)).2.1,
          (passUptoC cmp (n + 1) (b :: t)).2.2 + 1) := by
  rw [passUptoC]

theorem passUptoC_proj (cmp : α → α → Int) :
    ∀ (n : Nat) (l : List α),
      (passUptoC cmp n l).1 = (passUpto cmp n l).1 ∧
        (passUptoC cmp n l).2.1 = (passUpto cmp n l).2
  | _, [] => by simp
  | _, [a] => by simp
  | 0, a :: b :: t => by simp
  | 1, a :: b :: t => by simp
  | n + 2, a :: b :: t => by
    obtain ⟨ha1, _⟩ := passUptoC_proj cmp (n + 1) (a :: t)
    obtain ⟨hb1, hb2⟩ := passUptoC_proj cmp (n + 1) (b :: t)
    rw [passUptoC_cons₂, passUpto_cons₂]
    by_cases hc : 0 < cmp a b <;> simp [hc, ha1, hb1, hb2]

theorem passUptoC_cnt (cmp : α → α → Int) :
    ∀ (n : Nat) (l : List α), (passUptoC cmp n l).2.2 ≤ n - 1
  | _, [] => by simp
  | _, [a] => by simp
  | 0, a :: b :: t => by simp
  | 1, a :: b :: t => by simp
  | n + 2, a :: b :: t => by
    have h1 := passUptoC_cnt cmp (n + 1) (a :: t)
    have h2 := passUptoC_cnt cmp (n + 1) (b :: t)
    rw [passUptoC_cons₂]
    by_cases hc : 0 < cmp a b <;> simp [hc] <;> omega

theorem bubbleLoopC_fst (cmp : α → α → Int) :
    ∀ (n : Nat) (l : List α), (bubbleLoopC cmp n l).1 = bubbleLoop cmp n l
  | 0, _ => rfl
  | n + 1, l => by
    obtain ⟨h1, h2⟩ := passUptoC_proj cmp (n + 1) l
    rw [bubbleLoopC, bubbleLoop, h1, h2]
    split
    · exact bubbleLoopC_fst cmp n _
    · rfl

theorem bubbleLoopC_cnt (cmp : α → α → Int) :
    ∀ (n : Nat) (l : List α), (bubbleLoopC cmp n l).2 ≤ n * n
  | 0, l => by rw [bubbleLoopC]
  | n + 1, l => by
    have hp := passUptoC_cnt cmp (n + 1) l
    have hr := bubbleLoopC_cnt cmp n (passUptoC cmp (n + 1) l).1
    have hsq : (n + 1) * (n + 1) = n * n + 2 * n + 1 := by ring
    rw [bubbleLoopC]
    split
    · show (passUptoC cmp (n + 1) l).2.2 + (bubbleLoopC cmp n _).2 ≤ _
      omega
    · show (passUptoC cmp (n + 1) l).2.2 ≤ _
      omega

theorem sortWithComparatorCnt_fst (l : List α) (cmp : α → α → Int) :
    (SortWithComparatorCnt l cmp).1 = SortWithComparator l cmp := by
  rw [SortWithComparatorCnt, SortWithComparator]
  split
  · rfl
  · exact bubbleLoopC_fst cmp l.length l

theorem sortWithComparatorCnt_le (l : List α) (cmp : α → α → Int) :
    (SortWithComparatorCnt l cmp).2 ≤ l.length ^ 2 := by
  rw [SortWithComparatorCnt]
  split
  · simp
  · have := bubbleLoopC_cnt cmp l.length l
    simpa [pow_two] using this

/-! ### A pass over an already-ordered window swaps nothing -/

theorem passUpto_of_chain (cmp : α → α → Int) :
    ∀ (n : Nat) (l : List α), List.Chain' (fun a b => cmp a b ≤ 0) l →
      passUpto cmp n l = (l, false)
  | _, [], _ => by simp
  | _, [a], _ => by simp
  | 0, a :: b :: t, _ => by simp
  | 1, a :: b :: t, _ => by simp
  | n + 2, a :: b :: t, h => by
    obtain ⟨hab, hrest⟩ := List.chain'_cons.mp h
    rw [passUpto_cons₂, if_neg (by omega),
      passUpto_of_chain cmp (n + 1) (b :: t) hrest]

theorem bubbleLoop_of_chain (cmp : α → α → Int) (n : Nat) (l : List α)
    (h : List.Chain' (fun a b => cmp a b ≤ 0) l) : bubbleLoop cmp n l = l := by
  cases n
  · rfl
  · rw [bubbleLoop, passUpto_of_chain cmp _ l h]
    simp

theorem sortWithComparator_of_chain (cmp : α → α → Int) (l : List α)
    (h : List.Chain' (fun a b => cmp a b ≤ 0) l) : SortWithComparator l cmp = l := by
  rw [SortWithComparator]
  split
  · rfl
  · exact bubbleLoop_of_chain cmp l.length l h

theorem sort_of_sorted [LinearOrder α] (l : List α)
    (h : List.Sorted (· ≤ ·) l) : Sort' l = l := by
  rw [sort_eq_sortWithComparator]
  refine sortWithComparator_of_chain natCmp l (List.Chain'.imp ?_ h.chain')
  intro a b hab
  exact (natCmp_nonpos_iff a b).mpr hab

/-! ### Stability: a pass preserves any `Pairwise` relation whose reverse is
implied by the swap condition -/

theorem passUpto_pairwise {cmp : α → α → Int} {R : α → α → Prop}
    (hsw : ∀ a b, 0 < cmp a b → R b a) :
    ∀ (n : Nat) (l : List α), List.Pairwise R l → List.Pairwise R (passUpto cmp n l).1
  | _, [], _ => by simp
  | _, [a], _ => by simp
  | 0, a :: b :: t, h => by simpa using h
  | 1, a :: b :: t, h => by simpa using h
  | n + 2, a :: b :: t, h => by
    obtain ⟨ha, hbt⟩ := List.pairwise_cons.mp h
    obtain ⟨hb, htt⟩ := List.pairwise_cons.mp hbt
    rw [passUpto_cons₂]
    by_cases hc : 0 < cmp a b
    · rw [if_pos hc]
      refine List.pairwise_cons.mpr ⟨?_, ?_⟩
      · intro x hx
        rcases List.mem_cons.mp (passUpto_mem hx) with hx' | hx'
        · rw [hx']
          exact hsw a b hc
        · exact hb x hx'
      · refine passUpto_pairwise hsw (n + 1) (a :: t) (List.pairwise_cons.mpr ⟨?_, htt⟩)
        intro x hx
        exact ha x (List.mem_cons_of_mem b hx)
    · rw [if_neg hc]
      refine List.pairwise_cons.mpr ⟨?_, passUpto_pairwise hsw (n + 1) (b :: t) hbt⟩
      intro x hx
      exact ha x (passUpto_mem hx)

theorem bubbleLoop_pairwise {cmp : α → α → Int} {R : α → α → Prop}
    (hsw : ∀ a b, 0 < cmp a b → R b a) :
    ∀ (n : Nat) (l : List α), List.Pairwise R l → List.Pairwise R (bubbleLoop cmp n l)
  | 0, _, h => h
  | n + 1, l, h => by
    rw [bubbleLoop]
    split
    · exact bubbleLoop_pairwise hsw n _ (passUpto_pairwise hsw (n + 1) l h)
    · exact passUpto_pairwise hsw (n + 1) l h

theorem sortWithComparator_pairwise {cmp : α → α → Int} {R : α → α → Prop}
    (hsw : ∀ a b, 0 < cmp a b → R b a) (l : List α) (h : List.Pairwise R l) :
    List.Pairwise R (SortWithComparator l cmp) := by
  rw [SortWithComparator]
  split
  · exact h
  · exact bubbleLoop_pairwise hsw l.length l h

/-! ### Position tags -/

theorem tagFrom_snd_mem :
    ∀ (k : Nat) (l : List α) (p : α × Nat), p ∈ tagFrom k l → k ≤ p.2
  | k, [], p, h => by simp [tagFrom] at h
  | k, a :: t, p, h => by
    rw [tagFrom] at h
    rcases List.mem_cons.mp h with h | h
    · subst h
      exact le_rfl
    · exact le_trans (Nat.le_succ k) (tagFrom_snd_mem (k + 1) t p h)

theorem tagFrom_pairwise :
    ∀ (k : Nat) (l : List α),
      List.Pairwise (fun p q : α × Nat => p.2 < q.2) (tagFrom k l)
  | _, [] => by simp [tagFrom]
  | k, a :: t => by
    rw [tagFrom]
    refine List.pairwise_cons.mpr ⟨?_, tagFrom_pairwise (k + 1) t⟩
    intro q hq
    exact lt_of_lt_of_le (Nat.lt_succ_self k) (tagFrom_snd_mem (k + 1) t q hq)

/-! ### Lists of copies of one value -/

theorem eq_of_perm_of_all_eq {l₁ l₂ : List α} (x : α) (hp : l₁.Perm l₂)
    (h1 : ∀ y ∈ l₁, y = x) (h2 : ∀ y ∈ l₂, y = x) : l₁ = l₂ := by
  have e1 : l₁ = List.replicate l₁.length x := List.eq_replicate_iff.mpr ⟨rfl, h1⟩
  have e2 : l₂ = List.replicate l₂.length x := List.eq_replicate_iff.mpr ⟨rfl, h2⟩
  rw [e1, e2, hp.length_eq]

theorem sort_filter_eq [LinearOrder α] (l : List α) (x : α) :
    (Sort' l).filter (fun y => decide (y = x)) = l.filter (fun y => decide (y = x)) := by
  refine eq_of_perm_of_all_eq x ((sort_perm l).filter _) ?_ ?_ <;>
  · intro y hy
    exact of_decide_eq_true (List.mem_filter.mp hy).2

/-! ### The index-based embedding never goes out of bounds and computes the
structural embedding's result -/

theorem getElem_append_len (l₁ : List α) (a : α) (t : List α) :
    (l₁ ++ a :: t)[l₁.length]? = some a := by
  rw [List.getElem?_append_right le_rfl]
  simp

theorem getElem_append_len_succ (l₁ : List α) (a b : α) (t : List α) :
    (l₁ ++ a :: b :: t)[l₁.length + 1]? = some b := by
  rw [List.getElem?_append_right (by omega)]
  have h : l₁.length + 1 - l₁.length = 1 := by omega
  rw [h]
  simp

theorem set_append_len (l₁ : List α) (c a : α) (t : List α) :
    (l₁ ++ a :: t).set l₁.length c = l₁ ++ c :: t := by
  rw [List.set_append_right _ _ le_rfl]
  simp

theorem set_swap_adjacent (l₁ : List α) (a b : α) (t : List α) :
    ((l₁ ++ a :: b :: t).set l₁.length b).set (l₁.length + 1) a = l₁ ++ b :: a :: t := by
  rw [set_append_len]
  have h1 : l₁ ++ b :: b :: t = (l₁ ++ [b]) ++ b :: t := by simp
  have h2 : l₁.length + 1 = (l₁ ++ [b]).length := by simp
  rw [h1, h2, set_append_len]
  simp

theorem innerIdx_eq (cmp : α → α → Int) :
    ∀ (fuel : Nat) (l₁ l₂ : List α) (sw : Bool), fuel = 0 ∨ fuel + 1 ≤ l₂.length →
      innerIdx cmp fuel l₁.length (l₁ ++ l₂) sw =
        some (l₁ ++ (passUpto cmp (fuel + 1) l₂).1,
          (sw || (passUpto cmp (fuel + 1) l₂).2))
  | 0, l₁, l₂, sw, _ => by simp [innerIdx]
  | fuel + 1, l₁, l₂, sw, h => by
    have hlen : fuel + 2 ≤ l₂.length := by
      rcases h with h | h
      · omega
      · exact h
    rcases l₂ with _ | ⟨a, _ | ⟨b, t⟩⟩
    · simp at hlen
    · simp only [List.length_cons, List.length_nil] at hlen
      omega
    · rw [innerIdx]
      rw [getElem_append_len, getElem_append_len_succ]
      show (if 0 < cmp a b then
              innerIdx cmp fuel (l₁.length + 1)
                (((l₁ ++ a :: b :: t).set l₁.length b).set (l₁.length + 1) a) true
            else innerIdx cmp fuel (l₁.length + 1) (l₁ ++ a :: b :: t) sw) = _
      by_cases hc : 0 < cmp a b
      · rw [if_pos hc, set_swap_adjacent]
        have hrec := innerIdx_eq cmp fuel (l₁ ++ [b]) (a :: t) true
          (Or.inr (by simp only [List.length_cons] at hlen ⊢; omega))
        rw [show l₁.length + 1 = (l₁ ++ [b]).length by simp,
          show l₁ ++ b :: a :: t = (l₁ ++ [b]) ++ a :: t by simp, hrec,
          passUpto_cons₂, if_pos hc]
        simp
      · rw [if_neg hc]
        have hrec := innerIdx_eq cmp fuel (l₁ ++ [a]) (b :: t) sw
          (Or.inr (by simp only [List.length_cons] at hlen ⊢; omega))
        rw [show l₁.length + 1 = (l₁ ++ [a]).length by simp,
          show l₁ ++ a :: b :: t = (l₁ ++ [a]) ++ b :: t by simp, hrec,
          passUpto_cons₂, if_neg hc]
        simp

theorem outerIdx_eq (cmp : α → α → Int) :
    ∀ (n : Nat) (l : List α), n ≤ l.length →
      outerIdx cmp n l = some (bubbleLoop cmp n l)
  | 0, _, _ => rfl
  | n + 1, l, h => by
    have hinner := innerIdx_eq cmp n [] l false
      (by
        rcases Nat.eq_zero_or_pos n with hn | hn
        · exact Or.inl hn
        · exact Or.inr (by omega))
    simp only [List.length_nil, List.nil_append, Bool.false_or] at hinner
    rw [outerIdx, hinner]
    show (if (passUpto cmp (n + 1) l).2 = true then outerIdx cmp n (passUpto cmp (n + 1) l).1
        else some (passUpto cmp (n + 1) l).1) = some (bubbleLoop cmp (n + 1) l)
    rw [bubbleLoop]
    by_cases hs : (passUpto cmp (n + 1) l).2 = true
    · rw [if_pos hs, if_pos hs]
      exact outerIdx_eq cmp n _ (by rw [passUpto_length]; omega)
    · rw [if_neg hs, if_neg hs]

theorem sortWithComparatorIdx_eq (l : List α) (cmp : α → α → Int) :
    SortWithComparatorIdx l cmp = some (SortWithComparator l cmp) := by
  rw [SortWithComparatorIdx, SortWithComparator]
  split
  · rfl
  · exact outerIdx_eq cmp l.length l le_rfl

theorem innerIdxGt_eq [LinearOrder α] :
    ∀ (fuel i : Nat) (l : List α) (sw : Bool),
      innerIdxGt fuel i l sw = innerIdx natCmp fuel i l sw
  | 0, _, _, _ => rfl
  | fuel + 1, i, l, sw => by
    rw [innerIdxGt, innerIdx]
    rcases l[i]? with _ | a
    · rfl
    · rcases l[i + 1]? with _ | b
      · rfl
      · simp only [natCmp_pos_iff]
        by_cases hc : a > b
        · rw [if_pos hc, if_pos hc, innerIdxGt_eq fuel (i + 1) _ true]
        · rw [if_neg hc, if_neg hc, innerIdxGt_eq fuel (i + 1) l sw]

theorem outerIdxGt_eq [LinearOrder α] :
    ∀ (n : Nat) (l : List α), outerIdxGt n l = outerIdx natCmp n l
  | 0, _ => rfl
  | n + 1, l => by
    rw [outerIdxGt, outerIdx, innerIdxGt_eq n 0 l false]
    rcases innerIdx natCmp n 0 l false with _ | ⟨l', sw⟩
    · rfl
    · by_cases hs : sw = true
      · rw [hs]
        show outerIdxGt n l' = outerIdx natCmp n l'
        exact outerIdxGt_eq n l'
      · have : sw = false := by simpa using hs
        rw [this]
        simp

theorem sortIdx_eq [LinearOrder α] (l : List α) :
    SortIdx l = some (Sort' l) := by
  rw [SortIdx, sort_eq_sortWithComparator, SortWithComparator]
  split
  · rfl
  · rw [outerIdxGt_eq l.length l]
    exact outerIdx_eq natCmp l.length l le_rfl

/-! ### Claims -/

/-- C1: for every input sequence over a naturally ordered element type,
`Sort` returns a sequence that is non-decreasing under that order and is a
permutation of the input (same multiset of elements). -/
theorem C1_sort_sorted_and_perm [LinearOrder α] (l : List α) :
    List.Sorted (· ≤ ·) (Sort' l) ∧ (Sort' l).Perm l :=
  ⟨sort_sorted l, sort_perm l⟩

/-- C2: for every input sequence and every comparator that is a valid total
order, `SortWithComparator` returns a sequence non-decreasing under the
comparator and a permutation of the input. -/
theorem C2_sortWithComparator_sorted_and_perm (l : List α) (cmp : α → α → Int)
    (h : IsTotalOrderCmp cmp) :
    List.Pairwise (fun a b => cmp a b ≤ 0) (SortWithComparator l cmp) ∧
      (SortWithComparator l cmp).Perm l :=
  ⟨sortWithComparator_sorted h.flip h.trans l, sortWithComparator_perm l cmp⟩

/-- C2 witness: the subtraction comparator on naturals is a valid total order
and sorting `[3, 1, 2]` with it yields an ordered permutation. -/
theorem C2_witness :
    IsTotalOrderCmp (fun a b : Nat => (a : Int) - b) ∧
      (List.Pairwise (fun a b : Nat => ((a : Int) - b) ≤ 0)
          (SortWithComparator [3, 1, 2] (fun a b : Nat => (a : Int) - b)) ∧
        (SortWithComparator [3, 1, 2] (fun a b : Nat => (a : Int) - b)).Perm [3, 1, 2]) := by
  have hv : IsTotalOrderCmp (fun a b : Nat => (a : Int) - b) := by
    constructor
    · intro a b
      omega
    · intro a b c h1 h2
      omega
  exact ⟨hv, C2_sortWithComparator_sorted_and_perm [3, 1, 2] _ hv⟩

/-- C3: both entry points are stable.  For `Sort`, elements equal under a
linear order are identical, so the sublist of occurrences of any fixed value
is unchanged; for `SortWithComparator`, tagging each element with its input
position shows that comparator-equal elements keep their original relative
order, because the swap condition `comparator(a, b) > 0` is strict and never
fires on an equal pair. -/
theorem C3_stability [LinearOrder α] (l : List α) (x : α)
    (cmp : β → β → Int) (lb : List β)
    (hsym : ∀ a b, cmp a b = 0 → cmp b a = 0) :
    (Sort' l).filter (fun y => decide (y = x)) = l.filter (fun y => decide (y = x)) ∧
      List.Pairwise (fun p q : β × Nat => cmp p.1 q.1 = 0 → p.2 < q.2)
        (SortWithComparator (tagFrom 0 lb) (fun p q => cmp p.1 q.1)) := by
  refine ⟨sort_filter_eq l x, ?_⟩
  refine sortWithComparator_pairwise ?_ (tagFrom 0 lb)
    ((tagFrom_pairwise 0 lb).imp fun hlt => fun _ => hlt)
  intro p q hpq h0
  exact absurd (hsym q.1 p.1 h0) (by omega)

/-- C3 witness: stability at the input `[2, 1, 2]` under the natural order
and under the subtraction comparator. -/
theorem C3_witness :
    (∀ a b : Nat, ((a : Int) - b = 0) → ((b : Int) - a = 0)) ∧
      ((Sort' [2, 1, 2]).filter (fun y => decide (y = 2)) =
          [2, 1, 2].filter (fun y => decide (y = 2)) ∧
        List.Pairwise (fun p q : Nat × Nat => ((p.1 : Int) - q.1 = 0) → p.2 < q.2)
          (SortWithComparator (tagFrom 0 [2, 1, 2]) (fun p q => (p.1 : Int) - q.1))) := by
  have hsym : ∀ a b : Nat, ((a : Int) - b = 0) → ((b : Int) - a = 0) := by
    intro a b h
    omega
  exact ⟨hsym, C3_stability [2, 1, 2] 2 (fun a b : Nat => (a : Int) - b) [2, 1, 2] hsym⟩

/-- C4: for every input sequence and every comparator function whatsoever,
`SortWithComparator` runs to completion: the comparator is invoked at most
length² times, the instrumented run computes the same result, and the
index-based run never aborts. -/
theorem C4_terminates_quadratic (l : List α) (cmp : α → α → Int) :
    (SortWithComparatorCnt l cmp).2 ≤ l.length ^ 2 ∧
      (SortWithComparatorCnt l cmp).1 = SortWithComparator l cmp ∧
      SortWithComparatorIdx l cmp = some (SortWithComparator l cmp) :=
  ⟨sortWithComparatorCnt_le l cmp, sortWithComparatorCnt_fst l cmp,
    sortWithComparatorIdx_eq l cmp⟩

/-- C5: `Sort` and `SortWithComparator` applied to the comparator derived
from the natural order produce exactly the same output sequence. -/
theorem C5_sort_eq_sortWithComparator_natCmp [LinearOrder α] (l : List α) :
    Sort' l = SortWithComparator l natCmp :=
  sort_eq_sortWithComparator l

/-- C6: an input of length 0 or 1 is returned unchanged by both entry points
with zero ordering tests performed; in particular the comparator is never
invoked. -/
theorem C6_short_input_unchanged [LinearOrder α] (l : List α) (lb : List β)
    (cmp : β → β → Int) (h : l.length ≤ 1) (hb : lb.length ≤ 1) :
    Sort' l = l ∧ SortCnt l = (l, 0) ∧ SortIdx l = some l ∧
      SortWithComparator lb cmp = lb ∧ SortWithComparatorCnt lb cmp = (lb, 0) ∧
      SortWithComparatorIdx lb cmp = some lb := by
  refine ⟨?_, ?_, ?_, ?_, ?_, ?_⟩ <;>
    simp [Sort', SortCnt, SortIdx, SortWithComparator, SortWithComparatorCnt,
      SortWithComparatorIdx, h, hb]

/-- C6 witness: the singleton `[5]` and the empty list are returned unchanged
with zero comparisons. -/
theorem C6_witness :
    (([5] : List Nat).length ≤ 1 ∧ ([] : List Nat).length ≤ 1) ∧
      (Sort' [5] = [5] ∧ SortCnt [5] = ([5], 0) ∧ SortIdx [5] = some [5] ∧
        SortWithComparator ([] : List Nat) (fun a b => (a : Int) - b) = [] ∧
        SortWithComparatorCnt ([] : List Nat) (fun a b => (a : Int) - b) = ([], 0) ∧
        SortWithComparatorIdx ([] : List Nat) (fun a b => (a : Int) - b) = some []) :=
  ⟨⟨by decide, by decide⟩,
    C6_short_input_unchanged [5] [] (fun a b : Nat => (a : Int) - b)
      (by decide) (by decide)⟩

/-- C7: an input already non-decreasing under the relevant order is returned
unchanged element for element; the first full pass performs no swap, so the
no-swap flag ends the loop immediately. -/
theorem C7_sorted_input_identity [LinearOrder α] (l : List α)
    (cmp : β → β → Int) (lb : List β)
    (hl : List.Sorted (· ≤ ·) l)
    (hlb : List.Pairwise (fun a b => cmp a b ≤ 0) lb) :
    Sort' l = l ∧ passGt l.length l = (l, false) ∧
      SortWithComparator lb cmp = lb ∧ passUpto cmp lb.length lb = (lb, false) := by
  refine ⟨sort_of_sorted l hl, ?_, sortWithComparator_of_chain cmp lb hlb.chain',
    passUpto_of_chain cmp lb.length lb hlb.chain'⟩
  rw [passGt_eq]
  exact passUpto_of_chain natCmp l.length l
    (List.Chain'.imp (fun a b hab => (natCmp_nonpos_iff a b).mpr hab) hl.chain')

/-- C7 witness: the already-sorted inputs `[1, 2, 2, 3]` and `[1, 1, 2]`. -/
theorem C7_witness :
    (List.Sorted (· ≤ ·) [1, 2, 2, 3] ∧
        List.Pairwise (fun a b : Nat => ((a : Int) - b) ≤ 0) [1, 1, 2]) ∧
      (Sort' [1, 2, 2, 3] = [1, 2, 2, 3] ∧
        passGt ([1, 2, 2, 3] : List Nat).length [1, 2, 2, 3] = ([1, 2, 2, 3], false) ∧
        SortWithComparator [1, 1, 2] (fun a b : Nat => (a : Int) - b) = [1, 1, 2] ∧
        passUpto (fun a b : Nat => (a : Int) - b) ([1, 1, 2] : List Nat).length [1, 1, 2] =
          ([1, 1, 2], false)) :=
  ⟨⟨by decide, by decide⟩,
    C7_sorted_input_identity [1, 2, 2, 3] (fun a b : Nat => (a : Int) - b) [1, 1, 2]
      (by decide) (by decide)⟩

/-- C8: loop invariant under a valid total order.  After a pass with scan
bound `n` on a list whose suffix from position `n` is already final, the
suffix from position `n - 1` is non-decreasing and none of its elements sorts
before any element at a smaller position — each excluded element is in its
final sorted position — and a swap-free pass ends the loop. -/
theorem C8_pass_invariant {cmp : α → α → Int} (h : IsTotalOrderCmp cmp)
    (n : Nat) (l : List α) (hn1 : 1 ≤ n) (hn : n ≤ l.length)
    (hdom : ∀ x ∈ l.take n, ∀ y ∈ l.drop n, cmp x y ≤ 0)
    (hsorted : List.Pairwise (fun a b => cmp a b ≤ 0) (l.drop n)) :
    (∀ x ∈ ((passUpto cmp n l).1).take (n - 1),
        ∀ y ∈ ((passUpto cmp n l).1).drop (n - 1), cmp x y ≤ 0 ∧ 0 ≤ cmp y x) ∧
      List.Pairwise (fun a b => cmp a b ≤ 0 ∧ 0 ≤ cmp b a)
        (((passUpto cmp n l).1).drop (n - 1)) ∧
      ((passUpto cmp n l).2 = false → bubbleLoop cmp n l = (passUpto cmp n l).1) := by
  obtain ⟨h2', h1'⟩ := passUpto_inv h.flip h.trans n l hn1 hn hdom hsorted
  refine ⟨?_, ?_, ?_⟩
  · intro x hx y hy
    exact ⟨h2' x hx y hy, h.nonneg_rev (h2' x hx y hy)⟩
  · exact h1'.imp fun hab => ⟨hab, h.nonneg_rev hab⟩
  · intro hfalse
    rcases n with _ | n
    · omega
    · rw [bubbleLoop, if_neg (by simp [hfalse])]

/-- C8 witness: the invariant step at scan bound 2 on `[3, 1, 4]` under the
subtraction comparator. -/
theorem C8_witness :
    (IsTotalOrderCmp (fun a b : Nat => (a : Int) - b) ∧ 1 ≤ 2 ∧
        2 ≤ ([3, 1, 4] : List Nat).length ∧
        (∀ x ∈ ([3, 1, 4] : List Nat).take 2, ∀ y ∈ ([3, 1, 4] : List Nat).drop 2,
          ((x : Int) - y) ≤ 0) ∧
        List.Pairwise (fun a b : Nat => ((a : Int) - b) ≤ 0)
          (([3, 1, 4] : List Nat).drop 2)) ∧
      ((∀ x ∈ ((passUpto (fun a b : Nat => (a : Int) - b) 2 [3, 1, 4]).1).take 1,
          ∀ y ∈ ((passUpto (fun a b : Nat => (a : Int) - b) 2 [3, 1, 4]).1).drop 1,
            ((x : Int) - y) ≤ 0 ∧ 0 ≤ (y : Int) - x) ∧
        List.Pairwise (fun a b : Nat => ((a : Int) - b) ≤ 0 ∧ 0 ≤ (b : Int) - a)
          (((passUpto (fun a b : Nat => (a : Int) - b) 2 [3, 1, 4]).1).drop 1) ∧
        ((passUpto (fun a b : Nat => (a : Int) - b) 2 [3, 1, 4]).2 = false →
          bubbleLoop (fun a b : Nat => (a : Int) - b) 2 [3, 1, 4] =
            (passUpto (fun a b : Nat => (a : Int) - b) 2 [3, 1, 4]).1)) := by
  have hv : IsTotalOrderCmp (fun a b : Nat => (a : Int) - b) := by
    constructor
    · intro a b
      omega
    · intro a b c h1 h2
      omega
  refine ⟨⟨hv, by decide, by decide, by decide, by decide⟩, ?_⟩
  exact C8_pass_invariant hv 2 [3, 1, 4] (by decide) (by decide) (by decide) (by decide)

/-- C9: for every input sequence and every comparator function, valid or not,
the output of `SortWithComparator` is a permutation of the input: the only
mutation ever performed is an adjacent swap. -/
theorem C9_perm_any_comparator (l : List α) (cmp : α → α → Int) :
    (SortWithComparator l cmp).Perm l :=
  sortWithComparator_perm l cmp

/-- C10: every element access of both entry points is within bounds: the
index-based embeddings, in which each access is an `Option`-returning lookup
and any out-of-bounds access aborts with `none`, always return `some` of the
structural result. -/
theorem C10_no_out_of_bounds [LinearOrder α] (l : List α) (lb : List β)
    (cmp : β → β → Int) :
    SortIdx l = some (Sort' l) ∧
      SortWithComparatorIdx lb cmp = some (SortWithComparator lb cmp) :=
  ⟨sortIdx_eq l, sortWithComparatorIdx_eq lb cmp⟩

end BubbleSortGo
